import Mathlib

/-!
Verification of the Pareto estimator benchmarking harness
(`pareto_estimators.py`).

The Python source is shallowly embedded:

* numpy floating-point scalars are idealised as `NPF`: an exact rational
  together with the non-finite values `inf`, `ninf` and `nan`, with
  numpy's propagation rules for the arithmetic the estimators use
  (notably: positive / zero = `inf`, with only a runtime warning);
* transcendental functions (`np.log`, `np.sqrt`, the power used by the
  inverse-CDF sampler) are passed as explicit function parameters,
  constrained in each theorem by exactly the algebraic facts the real
  functions satisfy; computable stand-ins (`lgStub`, `sqStub`) that agree
  with the real functions on the inputs actually touched are used to
  evaluate concrete cases;
* Python exceptions become `Except PyErr`;
* the global `results_dict` becomes an explicitly threaded insertion-ordered
  association list `Store`;
* wall-clock timing is non-deterministic environment input, so the measured
  durations enter the model as an explicit stream `durs : ℕ → ℚ`, and the
  random samples as a stream `samples : ℕ → Sample`, both indexed by the
  running call counter.
-/

/-- Python exceptions that the embedded code can raise. -/
inductive PyErr where
  /-- `ValueError`, e.g. `min` of an empty sequence. -/
  | valueError : PyErr
  /-- `ZeroDivisionError`, e.g. integer `0 ** -1`. -/
  | zeroDivisionError : PyErr
deriving DecidableEq, Repr

/-- Idealised numpy floating-point scalar: an exact rational or one of the
non-finite values `inf`, `-inf`, `nan`.  Rounding is not modelled. -/
inductive NPF where
  | fin : ℚ → NPF
  | inf : NPF
  | ninf : NPF
  | nan : NPF
deriving DecidableEq, Repr

namespace NPF

/-- numpy addition on scalars. -/
def npAdd : NPF → NPF → NPF
  | nan, _ => nan
  | _, nan => nan
  | fin a, fin b => fin (a + b)
  | fin _, inf => inf
  | inf, fin _ => inf
  | fin _, ninf => ninf
  | ninf, fin _ => ninf
  | inf, inf => inf
  | ninf, ninf => ninf
  | inf, ninf => nan
  | ninf, inf => nan

/-- numpy negation on scalars. -/
def npNeg : NPF → NPF
  | fin a => fin (-a)
  | inf => ninf
  | ninf => inf
  | nan => nan

/-- numpy subtraction on scalars. -/
def npSub (a b : NPF) : NPF := npAdd a (npNeg b)

/-- numpy multiplication on scalars. -/
def npMul : NPF → NPF → NPF
  | nan, _ => nan
  | _, nan => nan
  | fin a, fin b => fin (a * b)
  | fin a, inf => if 0 < a then inf else if a < 0 then ninf else nan
  | inf, fin a => if 0 < a then inf else if a < 0 then ninf else nan
  | fin a, ninf => if 0 < a then ninf else if a < 0 then inf else nan
  | ninf, fin a => if 0 < a then ninf else if a < 0 then inf else nan
  | inf, inf => inf
  | inf, ninf => ninf
  | ninf, inf => ninf
  | ninf, ninf => inf

/-- numpy division on scalars; division of a non-zero finite value by zero
yields a signed infinity (numpy emits a `RuntimeWarning` but does not
raise), `0/0` yields `nan`. -/
def npDiv : NPF → NPF → NPF
  | nan, _ => nan
  | _, nan => nan
  | fin a, fin b =>
      if b ≠ 0 then fin (a / b)
      else if 0 < a then inf else if a < 0 then ninf else nan
  | fin _, inf => fin 0
  | fin _, ninf => fin 0
  | inf, fin b => if 0 ≤ b then inf else ninf
  | ninf, fin b => if 0 ≤ b then ninf else inf
  | inf, inf => nan
  | inf, ninf => nan
  | ninf, inf => nan
  | ninf, ninf => nan

/-- numpy `x ** -1` on scalars: `(0.0) ** -1` yields `inf` (with a
`RuntimeWarning`), `inf ** -1` yields `0`. -/
def npRecip : NPF → NPF
  | fin a => if a = 0 then inf else fin a⁻¹
  | inf => fin 0
  | ninf => fin 0
  | nan => nan

/-- Elementwise quotient of two rationals as a numpy scalar (array element
divided by a scalar): non-zero over zero is a signed infinity. -/
def npDivQ (a b : ℚ) : NPF :=
  if b ≠ 0 then fin (a / b)
  else if 0 < a then inf else if a < 0 then ninf else nan

/-- `np.sum` over a list of scalars (addition order is immaterial for the
lists this development evaluates it on). -/
def npSum (l : List NPF) : NPF := l.foldr npAdd (fin 0)

end NPF

open NPF

/-- `np.mean` of a rational-valued sample: `nan` (with a warning) on the
empty input, otherwise the exact arithmetic mean. -/
def npMeanQ : List ℚ → NPF
  | [] => NPF.nan
  | x :: xs => NPF.fin ((x :: xs).sum / (x :: xs).length)

/-- `np.var` (population variance, `ddof = 0`) of a rational-valued sample:
`nan` on the empty input, otherwise the mean squared deviation. -/
def npVarQ : List ℚ → NPF
  | [] => NPF.nan
  | x :: xs =>
      NPF.fin ((((x :: xs).map
        (fun y => (y - (x :: xs).sum / (x :: xs).length) ^ 2)).sum) /
          (x :: xs).length)

/-- The exact square root of a natural number, when it is a perfect
square (a bounded search, so that it evaluates by kernel reduction). -/
def natSqrtExact (n : ℕ) : Option ℕ :=
  (List.range (n + 1)).find? (fun r => r * r = n)

/-- Computable stand-in for `np.sqrt`: exact on perfect rational squares,
on `0`, and on `inf`; `nan` on negative and `nan` inputs; an (unused)
junk value `0` on other finite inputs. -/
def sqStub : NPF → NPF
  | NPF.fin q =>
      if q < 0 then NPF.nan
      else match natSqrtExact q.num.toNat, natSqrtExact q.den with
        | some a, some b => NPF.fin ((a : ℚ) / (b : ℚ))
        | _, _ => NPF.fin 0
  | NPF.inf => NPF.inf
  | NPF.ninf => NPF.nan
  | NPF.nan => NPF.nan

/-- Computable stand-in for `np.log`: exact at `1`, `0`, negative inputs and
`inf`; on other positive finite inputs it returns the sign-correct surrogate
`q - 1` (finite, zero only at `1`), which is all any theorem uses of it. -/
def lgStub : NPF → NPF
  | NPF.fin q =>
      if q = 0 then NPF.ninf
      else if q < 0 then NPF.nan
      else NPF.fin (q - 1)
  | NPF.inf => NPF.inf
  | NPF.ninf => NPF.nan
  | NPF.nan => NPF.nan

/-- A sample of rational values, as consumed by the estimators. -/
abbrev Sample := List ℚ

/-- The global `results_dict`: an insertion-ordered mapping from estimator
name to the list of `[result, duration]` records, embedded as an
association list. -/
abbrev Store (β : Type) := List (String × List (β × ℚ))

/-- Dictionary lookup in a `Store`. -/
def lookupStore {β : Type} : Store β → String → Option (List (β × ℚ))
  | [], _ => none
  | (k, v) :: rest, n => if k = n then some v else lookupStore rest n

/-- The records a `Store` holds for a name (empty when the key is absent). -/
def recsOf {β : Type} (s : Store β) (n : String) : List (β × ℚ) :=
  (lookupStore s n).getD []

/-- The mutation performed by `measure_time`'s wrapper on `results_dict`:
append the record to the entry for `n`, creating the entry (at the end,
matching dict insertion order) if it is absent. -/
def storeAppend {β : Type} : Store β → String → (β × ℚ) → Store β
  | [], n, r => [(n, [r])]
  | (k, v) :: rest, n, r =>
      if k = n then (k, v ++ [r]) :: rest else (k, v) :: storeAppend rest n r

/-- `measure_time`'s wrapper: run the wrapped estimator on `x`; on normal
return, record `(result, duration)` under the estimator's name and hand
`(result, duration)` back to the caller; on an exception, let it propagate.
The measured wall-clock duration is environment input, passed in as `dur`. -/
def measure_time {α β : Type} (name : String) (f : α → Except PyErr β)
    (dur : ℚ) (x : α) (s : Store β) : Except PyErr (β × ℚ) × Store β :=
  match f x with
  | .error e => (.error e, s)
  | .ok result => (.ok (result, dur), storeAppend s name (result, dur))

/-- Python's built-in `min` on a sequence: `ValueError` on an empty
sequence, otherwise the least element (a left fold). -/
def pymin : List ℚ → Except PyErr ℚ
  | [] => .error .valueError
  | x :: xs => .ok (xs.foldl min x)

/-- The estimator names the experiment loop dispatches on (source lines
227–228). -/
def function_names : List String :=
  ["umvue_estimator", "ml_estimator", "mom_estimator", "mm1_estimator",
   "mm2_estimator", "mm3_estimator", "mm4_estimator"]

/-- The inner loop of one repetition: for each name in `names`, call
`get_pareto_data` (modelled by reading the sample stream at the current
draw counter) and `eval` the named estimator on that fresh sample through
`measure_time`.  An uncaught exception aborts the whole script. -/
def runNames {β : Type} (samples : ℕ → Sample)
    (est : String → Sample → Except PyErr β) (durs : ℕ → ℚ) :
    List String → ℕ → Store β → Except PyErr (Store β)
  | [], _, s => .ok s
  | n :: rest, ctr, s =>
    match measure_time n (est n) (durs ctr) (samples ctr) s with
    | (.error e, _) => .error e
    | (.ok _, s2) => runNames samples est durs rest (ctr + 1) s2

/-- The outer loop over the remaining repetitions. -/
def runLoop {β : Type} (samples : ℕ → Sample)
    (est : String → Sample → Except PyErr β) (durs : ℕ → ℚ)
    (names : List String) : ℕ → ℕ → Store β → Except PyErr (Store β)
  | 0, _, s => .ok s
  | reps + 1, ctr, s =>
    match runNames samples est durs names ctr s with
    | .error e => .error e
    | .ok s2 => runLoop samples est durs names reps (ctr + names.length) s2

/-- The module-level experiment loop (source lines 230–235): `reps`
repetitions, each invoking every name in `names` in order on a freshly
drawn sample, accumulating into an initially empty `results_dict`. -/
def runExperiments {β : Type} (reps : ℕ) (names : List String)
    (samples : ℕ → Sample) (est : String → Sample → Except PyErr β)
    (durs : ℕ → ℚ) : Except PyErr (Store β) :=
  runLoop samples est durs names reps 0 []

/-- The store produced by one repetition when every estimator call returns
normally; `res n j` is the value the estimator named `n` returns on the
`j`-th drawn sample. -/
def runNamesP {β : Type} (res : String → ℕ → β) (durs : ℕ → ℚ) :
    List String → ℕ → Store β → Store β
  | [], _, s => s
  | n :: rest, ctr, s =>
      runNamesP res durs rest (ctr + 1) (storeAppend s n (res n ctr, durs ctr))

/-- The store produced by the whole run when every estimator call returns
normally. -/
def runLoopP {β : Type} (res : String → ℕ → β) (durs : ℕ → ℚ)
    (names : List String) : ℕ → ℕ → Store β → Store β
  | 0, _, s => s
  | reps + 1, ctr, s =>
      runLoopP res durs names reps (ctr + names.length)
        (runNamesP res durs names ctr s)

/-!  The estimators (source lines 55–178).  Each receives the sample as a
list of exact rationals and computes with idealised numpy scalars; `lg`
models the elementwise `np.log` and `sq` models `np.sqrt`. -/

/-- `ml_estimator` (source lines 72–84): the closed-form maximum-likelihood
estimator.  `gamma = min(data)`, the sample is divided elementwise by
`gamma`, and `alpha = n * (np.sum(np.log(data / gamma))) ** -1`. -/
def ml_estimator (lg : NPF → NPF) (data : Sample) : Except PyErr (NPF × NPF) :=
  match pymin data with
  | .error e => .error e
  | .ok gamma =>
      let n := data.length
      let S := npSum ((data.map (fun x => npDivQ x gamma)).map lg)
      .ok (npMul (NPF.fin n) (npRecip S), NPF.fin gamma)

/-- The closed-form maximum-likelihood estimator as the specification
writes it: shape `n / Σ ln(xᵢ/x₁)` and location `x₁ = min(sample)`. -/
def ml_spec (lg : NPF → NPF) (data : Sample) : Except PyErr (NPF × NPF) :=
  match pymin data with
  | .error e => .error e
  | .ok x1 =>
      .ok (npDiv (NPF.fin data.length)
             (npSum ((data.map (fun x => npDivQ x x1)).map lg)),
           NPF.fin x1)

/-- `umvue_estimator` (source lines 55–69): the uniformly-minimum-variance
unbiased estimator.  On a one-element sample the `gamma` line evaluates the
Python integer power `(n - 1) ** -1 = 0 ** -1`, which raises
`ZeroDivisionError` (the `alpha` line before it only uses numpy scalars and
merely warns). -/
def umvue_estimator (lg : NPF → NPF) (data : Sample) :
    Except PyErr (NPF × NPF) :=
  match pymin data with
  | .error e => .error e
  | .ok x1 =>
      let n := data.length
      let S := npSum ((data.map (fun x => npDivQ x x1)).map lg)
      let tda := npMul (NPF.fin n) (npRecip S)
      let alpha := npMul (NPF.fin (1 - 2 * (n : ℚ)⁻¹)) tda
      if n = 1 then .error .zeroDivisionError
      else
        .ok (alpha,
          npMul
            (npSub (NPF.fin 1)
              (npMul (NPF.fin ((n : ℚ) - 1)⁻¹) (npRecip tda)))
            (NPF.fin x1))

/-- `mom_estimator` (source lines 98–111): the method-of-moments estimator.
`t = np.mean(data)`, `s2 = np.var(data)`, `s = np.sqrt(s2)`,
`alpha = 1 + sqrt(1 + t²/s2)`,
`gamma = sqrt(s2 + t²) / (s + sqrt(s2 + t²)) * t`.  There is no raising
path: zero variance only produces non-finite scalars with warnings. -/
def mom_estimator (sq : NPF → NPF) (data : Sample) :
    Except PyErr (NPF × NPF) :=
  let t := npMeanQ data
  let s2 := npVarQ data
  let s := sq s2
  let alpha := npAdd (NPF.fin 1) (sq (npAdd (NPF.fin 1) (npDiv (npMul t t) s2)))
  let root := sq (npAdd s2 (npMul t t))
  let gamma := npMul (npDiv root (npAdd s root)) t
  .ok (alpha, gamma)

/-- `get_pareto_data` (source lines 43–52) delegates to
`scipy.stats.pareto.rvs(shape, scale=location, size=count)`.  The external
library is modelled by inverse-transform sampling from its documented
distribution: each draw is `location * (1 - uᵢ) ** (-1/shape)` for a
uniform variate `uᵢ ∈ (0,1)`, with the real power passed in as `pw`. -/
def get_pareto_data (pw : ℚ → ℚ → ℚ) (shape location : ℚ) (count : ℕ)
    (u : ℕ → ℚ) : Sample :=
  (List.range count).map (fun i => location * pw (1 - u i) (-shape⁻¹))

/-!  The aggregation step (source lines 237–243). -/

/-- Whether `"scipy"` occurs as a substring of a character list. -/
def hasScipyChars : List Char → Bool
  | [] => false
  | c :: cs => "scipy".toList.isPrefixOf (c :: cs) || hasScipyChars cs

/-- Python's `"scipy" in k`. -/
def hasScipy (k : String) : Bool := hasScipyChars k.toList

/-- Drop every occurrence of `"_estimator"`, scanning left to right
(Python's `k.replace("_estimator", "")`); `fuel` bounds the recursion and
is always supplied as more than the input length. -/
def dropEstAux : ℕ → List Char → List Char
  | 0, l => l
  | _ + 1, [] => []
  | fuel + 1, c :: cs =>
      if "_estimator".toList.isPrefixOf (c :: cs) then
        dropEstAux fuel ((c :: cs).drop "_estimator".length)
      else c :: dropEstAux fuel cs

/-- `k.replace("_estimator", "")`. -/
def stripEst (k : String) : String :=
  ⟨dropEstAux (k.toList.length + 1) k.toList⟩

/-- `np.average` of a list of durations. -/
def np_average (l : List ℚ) : ℚ := l.sum / l.length

/-- `np.std` (population, `ddof = 0`), with `np.sqrt` passed in as `sq`:
the square root of the mean squared deviation. -/
def np_std (sq : ℚ → ℚ) (l : List ℚ) : ℚ :=
  sq (((l.map (fun x => (x - np_average l) ^ 2)).sum) / l.length)

/-- One entry of the aggregation loop: extract the durations (`result[1]`
for each record) and compute `[np.average, np.std, np.max]`.  `np.max`
raises `ValueError` on an empty sequence. -/
def aggEntry {β : Type} (sq : ℚ → ℚ) (records : List (β × ℚ)) :
    Except PyErr (ℚ × ℚ × ℚ) :=
  match records.map Prod.snd with
  | [] => .error .valueError
  | d :: rest =>
      .ok (np_average (records.map Prod.snd),
           np_std sq (records.map Prod.snd),
           rest.foldl max d)

/-- The aggregation loop over `results_dict` (source lines 237–243): for
each key not containing `"scipy"`, in insertion order, store
`[np.average(durations), np.std(durations), np.max(durations)]` under the
key with `"_estimator"` stripped. -/
def avg_results {β : Type} (sq : ℚ → ℚ) :
    Store β → Except PyErr (List (String × (ℚ × ℚ × ℚ)))
  | [] => .ok []
  | (k, records) :: rest =>
      if hasScipy k then avg_results sq rest
      else
        match aggEntry sq records with
        | .error e => .error e
        | .ok entry =>
            match avg_results sq rest with
            | .error e => .error e
            | .ok m => .ok ((stripEst k, entry) :: m)

/-!  Specification-side definitions of the aggregate statistics, written
from the spec's words ("mean, population standard deviation, and maximum of
the durations"). -/

/-- Arithmetic mean. -/
def specMean (l : List ℚ) : ℚ := l.sum / l.length

/-- Population variance: the mean of the squared deviations from the mean. -/
def specPopVar (l : List ℚ) : ℚ :=
  ((l.map (fun d => (d - specMean l) ^ 2)).sum) / l.length

/-- The 1-repetition demonstration store: running the seven configured
estimators once with a constant estimator and zero durations. -/
def demoStore : Store ℚ :=
  [("umvue_estimator", [(0, 0)]), ("ml_estimator", [(0, 0)]),
   ("mom_estimator", [(0, 0)]), ("mm1_estimator", [(0, 0)]),
   ("mm2_estimator", [(0, 0)]), ("mm3_estimator", [(0, 0)]),
   ("mm4_estimator", [(0, 0)])]

/-- The aggregate of `demoStore`. -/
def demoAgg : List (String × (ℚ × ℚ × ℚ)) :=
  [("umvue", (0, 0, 0)), ("ml", (0, 0, 0)), ("mom", (0, 0, 0)),
   ("mm1", (0, 0, 0)), ("mm2", (0, 0, 0)), ("mm3", (0, 0, 0)),
   ("mm4", (0, 0, 0))]

/-!  Helper lemmas. -/

section StoreLemmas

variable {β : Type}

theorem lookupStore_storeAppend_self (s : Store β) (n : String) (r : β × ℚ) :
    lookupStore (storeAppend s n r) n = some (recsOf s n ++ [r]) := by
  induction s with
  | nil => simp [storeAppend, lookupStore, recsOf]
  | cons kv rest ih =>
    obtain ⟨k, v⟩ := kv
    by_cases h : k = n
    · subst h
      simp [storeAppend, lookupStore, recsOf]
    · simp [storeAppend, lookupStore, h, ih, recsOf]

theorem lookupStore_storeAppend_ne (s : Store β) (n : String) (r : β × ℚ)
    (m : String) (h : m ≠ n) :
    lookupStore (storeAppend s n r) m = lookupStore s m := by
  have h' : ¬n = m := fun hh => h hh.symm
  induction s with
  | nil => simp [storeAppend, lookupStore, h']
  | cons kv rest ih =>
    obtain ⟨k, v⟩ := kv
    by_cases hk : k = n
    · subst hk
      simp [storeAppend, lookupStore, h']
    · simp [storeAppend, lookupStore, hk, ih]

theorem recsOf_storeAppend_self (s : Store β) (n : String) (r : β × ℚ) :
    recsOf (storeAppend s n r) n = recsOf s n ++ [r] := by
  simp [recsOf, lookupStore_storeAppend_self]

theorem recsOf_storeAppend_ne (s : Store β) (n : String) (r : β × ℚ)
    (m : String) (h : m ≠ n) :
    recsOf (storeAppend s n r) m = recsOf s m := by
  simp [recsOf, lookupStore_storeAppend_ne s n r m h]

end StoreLemmas

section DriverLemmas

variable {β : Type} (samples : ℕ → Sample)
  (est : String → Sample → Except PyErr β) (durs : ℕ → ℚ)
  (res : String → ℕ → β)

theorem runNames_eq_runNamesP (names : List String)
    (h : ∀ n ∈ names, ∀ j, est n (samples j) = .ok (res n j)) :
    ∀ (ctr : ℕ) (s : Store β),
      runNames samples est durs names ctr s =
        .ok (runNamesP res durs names ctr s) := by
  induction names with
  | nil => intro ctr s; rfl
  | cons n rest ih =>
    intro ctr s
    have hn : est n (samples ctr) = .ok (res n ctr) :=
      h n (List.mem_cons_self n rest) ctr
    have hrest : ∀ m ∈ rest, ∀ j, est m (samples j) = .ok (res m j) :=
      fun m hm => h m (List.mem_cons_of_mem n hm)
    simp [runNames, measure_time, hn, runNamesP, ih hrest]

theorem runLoop_eq_runLoopP (names : List String)
    (h : ∀ n ∈ names, ∀ j, est n (samples j) = .ok (res n j)) :
    ∀ (reps ctr : ℕ) (s : Store β),
      runLoop samples est durs names reps ctr s =
        .ok (runLoopP res durs names reps ctr s) := by
  intro reps
  induction reps with
  | zero => intro ctr s; rfl
  | succ r ih =>
    intro ctr s
    simp [runLoop, runNames_eq_runNamesP samples est durs res names h,
      runLoopP, ih]

theorem recsOf_runNamesP_notmem (names : List String) (m : String)
    (hm : m ∉ names) :
    ∀ (ctr : ℕ) (s : Store β),
      recsOf (runNamesP res durs names ctr s) m = recsOf s m := by
  induction names with
  | nil => intro ctr s; rfl
  | cons n rest ih =>
    intro ctr s
    have hmn : m ≠ n := fun hh => hm (hh ▸ List.mem_cons_self n rest)
    have hmr : m ∉ rest := fun hh => hm (List.mem_cons_of_mem n hh)
    simp [runNamesP, ih hmr, recsOf_storeAppend_ne _ _ _ _ hmn]

theorem recsOf_runNamesP_count (names : List String) (m : String) :
    ∀ (ctr : ℕ) (s : Store β),
      (recsOf (runNamesP res durs names ctr s) m).length =
        (recsOf s m).length + names.count m := by
  induction names with
  | nil => intro ctr s; simp [runNamesP]
  | cons n rest ih =>
    intro ctr s
    by_cases hn : n = m
    · subst hn
      simp [runNamesP, ih, recsOf_storeAppend_self, List.count_cons]
      omega
    · have : m ≠ n := fun hh => hn hh.symm
      simp [runNamesP, ih, recsOf_storeAppend_ne _ _ _ _ this,
        List.count_cons, hn]

theorem recsOf_runNamesP_split (l1 l2 : List String) (m : String)
    (h1 : m ∉ l1) (h2 : m ∉ l2) :
    ∀ (ctr : ℕ) (s : Store β),
      recsOf (runNamesP res durs (l1 ++ m :: l2) ctr s) m =
        recsOf s m ++ [(res m (ctr + l1.length), durs (ctr + l1.length))] := by
  induction l1 with
  | nil =>
    intro ctr s
    simp only [List.nil_append, runNamesP, List.length_nil, Nat.add_zero]
    rw [recsOf_runNamesP_notmem durs res l2 m h2,
      recsOf_storeAppend_self]
  | cons a l1' ih =>
    intro ctr s
    have ham : m ≠ a := fun hh => h1 (hh ▸ List.mem_cons_self a l1')
    have h1' : m ∉ l1' := fun hh => h1 (List.mem_cons_of_mem a hh)
    simp only [List.cons_append, runNamesP, List.append_eq]
    rw [ih h1', recsOf_storeAppend_ne _ _ _ _ ham]
    simp only [List.length_cons]
    have hidx : ctr + 1 + l1'.length = ctr + (l1'.length + 1) := by omega
    rw [hidx]

theorem recsOf_runLoopP_count (names : List String) (m : String) :
    ∀ (reps ctr : ℕ) (s : Store β),
      (recsOf (runLoopP res durs names reps ctr s) m).length =
        (recsOf s m).length + reps * names.count m := by
  intro reps
  induction reps with
  | zero => intro ctr s; simp [runLoopP]
  | succ r ih =>
    intro ctr s
    simp only [runLoopP]
    rw [ih, recsOf_runNamesP_count]
    ring

theorem recsOf_runLoopP_split (l1 l2 : List String) (m : String)
    (h1 : m ∉ l1) (h2 : m ∉ l2) :
    ∀ (reps ctr : ℕ) (s : Store β),
      recsOf (runLoopP res durs (l1 ++ m :: l2) reps ctr s) m =
        recsOf s m ++ (List.range reps).map (fun i =>
          (res m (ctr + i * (l1 ++ m :: l2).length + l1.length),
           durs (ctr + i * (l1 ++ m :: l2).length + l1.length))) := by
  intro reps
  induction reps with
  | zero => intro ctr s; simp [runLoopP]
  | succ r ih =>
    intro ctr s
    simp only [runLoopP]
    rw [ih, recsOf_runNamesP_split durs res l1 l2 m h1 h2,
      List.range_succ_eq_map]
    simp only [List.map_cons, List.map_map, Nat.zero_mul, Nat.add_zero,
      List.append_assoc, List.singleton_append]
    congr 2
    apply List.map_congr_left
    intro i _
    have hidx : ctr + (l1 ++ m :: l2).length + i * (l1 ++ m :: l2).length +
        l1.length = ctr + Nat.succ i * (l1 ++ m :: l2).length + l1.length := by
      rw [Nat.succ_mul]; ring
    simp only [Function.comp_apply, hidx]

/-- A key present after `storeAppend` is the appended key or was already
present. -/
theorem key_mem_storeAppend (s : Store β) (n : String) (r : β × ℚ)
    (kv : String × List (β × ℚ)) (h : kv ∈ storeAppend s n r) :
    kv.1 = n ∨ ∃ v, (kv.1, v) ∈ s := by
  induction s with
  | nil =>
    simp only [storeAppend, List.mem_singleton] at h
    subst h
    exact Or.inl rfl
  | cons kv0 s' ihs =>
    obtain ⟨k0, v0⟩ := kv0
    by_cases hk : k0 = n
    · subst hk
      simp only [storeAppend, eq_self_iff_true, if_true, List.mem_cons] at h
      rcases h with h | h
      · subst h
        exact Or.inr ⟨v0, List.mem_cons_self _ _⟩
      · exact Or.inr ⟨kv.2, List.mem_cons_of_mem _ (by simpa using h)⟩
    · simp only [storeAppend, if_neg hk, List.mem_cons] at h
      rcases h with h | h
      · subst h
        exact Or.inr ⟨v0, List.mem_cons_self _ _⟩
      · rcases ihs h with h' | ⟨v', hv'⟩
        · exact Or.inl h'
        · exact Or.inr ⟨v', List.mem_cons_of_mem _ hv'⟩

/-- Keys appearing in the store after a successful inner loop were already
present or come from the name list. -/
theorem runNames_keys (names : List String) :
    ∀ (ctr : ℕ) (s s2 : Store β),
      runNames samples est durs names ctr s = .ok s2 →
      ∀ kv ∈ s2, kv.1 ∈ names ∨ (∃ v, (kv.1, v) ∈ s) := by
  induction names with
  | nil =>
    intro ctr s s2 h kv hkv
    simp only [runNames, Except.ok.injEq] at h
    subst h
    exact Or.inr ⟨kv.2, hkv⟩
  | cons n rest ih =>
    intro ctr s s2 h kv hkv
    simp only [runNames] at h
    cases he : est n (samples ctr) with
    | error e => simp [measure_time, he] at h
    | ok r =>
      simp only [measure_time, he] at h
      rcases ih _ _ _ h kv hkv with hmem | ⟨v, hv⟩
      · exact Or.inl (List.mem_cons_of_mem n hmem)
      · rcases key_mem_storeAppend _ _ _ _ hv with h' | ⟨v', hv'⟩
        · exact Or.inl (h' ▸ List.mem_cons_self n rest)
        · exact Or.inr ⟨v', hv'⟩

/-- Keys appearing in the store after a successful run come from the name
list. -/
theorem runLoop_keys (names : List String) :
    ∀ (reps ctr : ℕ) (s s2 : Store β),
      runLoop samples est durs names reps ctr s = .ok s2 →
      ∀ kv ∈ s2, kv.1 ∈ names ∨ (∃ v, (kv.1, v) ∈ s) := by
  intro reps
  induction reps with
  | zero =>
    intro ctr s s2 h kv hkv
    simp only [runLoop, Except.ok.injEq] at h
    subst h
    exact Or.inr ⟨kv.2, hkv⟩
  | succ r ih =>
    intro ctr s s2 h kv hkv
    simp only [runLoop] at h
    cases hs : runNames samples est durs names ctr s with
    | error e => simp [hs] at h
    | ok s1 =>
      simp only [hs] at h
      rcases ih _ _ _ h kv hkv with hmem | ⟨v, hv⟩
      · exact Or.inl hmem
      · exact runNames_keys samples est durs names ctr s s1 hs (kv.1, v) hv

end DriverLemmas

theorem foldl_min_le_init (ds : List ℚ) : ∀ a : ℚ, ds.foldl min a ≤ a := by
  induction ds with
  | nil => intro a; simp
  | cons e es ih =>
    intro a
    calc es.foldl min (min a e) ≤ min a e := ih (min a e)
    _ ≤ a := min_le_left a e

theorem foldl_min_le_mem (ds : List ℚ) :
    ∀ (a y : ℚ), y ∈ ds → ds.foldl min a ≤ y := by
  induction ds with
  | nil => intro a y hy; cases hy
  | cons e es ih =>
    intro a y hy
    rcases List.mem_cons.mp hy with rfl | hy
    · calc es.foldl min (min a y) ≤ min a y := foldl_min_le_init es _
      _ ≤ y := min_le_right a y
    · exact ih (min a e) y hy

/-- The value returned by Python's `min` bounds every sample element. -/
theorem pymin_le (data : Sample) (g : ℚ) (h : pymin data = .ok g) :
    ∀ y ∈ data, g ≤ y := by
  match data with
  | [] => cases h
  | d :: ds =>
    simp only [pymin, Except.ok.injEq] at h
    subst h
    intro y hy
    rcases List.mem_cons.mp hy with rfl | hy
    · exact foldl_min_le_init ds y
    · exact foldl_min_le_mem ds d y hy

theorem npSum_fin_nonneg (l : List NPF)
    (h : ∀ v ∈ l, ∃ r : ℚ, 0 ≤ r ∧ v = NPF.fin r) :
    ∃ s : ℚ, 0 ≤ s ∧ npSum l = NPF.fin s := by
  induction l with
  | nil => exact ⟨0, le_refl 0, rfl⟩
  | cons v l' ih =>
    obtain ⟨r, hr, hv⟩ := h v (List.mem_cons_self v l')
    obtain ⟨s', hs', hsum⟩ := ih (fun w hw => h w (List.mem_cons_of_mem v hw))
    refine ⟨r + s', by positivity, ?_⟩
    simp [npSum, List.foldr_cons, hv] at hsum ⊢
    rw [hsum]
    rfl

theorem npSum_fin_pos (l : List NPF)
    (h : ∀ v ∈ l, ∃ r : ℚ, 0 ≤ r ∧ v = NPF.fin r)
    (hstrict : ∃ v ∈ l, ∃ r : ℚ, 0 < r ∧ v = NPF.fin r) :
    ∃ s : ℚ, 0 < s ∧ npSum l = NPF.fin s := by
  induction l with
  | nil => obtain ⟨v, hv, _⟩ := hstrict; cases hv
  | cons v l' ih =>
    obtain ⟨w, hw, r0, hr0, hw0⟩ := hstrict
    rcases List.mem_cons.mp hw with rfl | hw
    · obtain ⟨s', hs', hsum⟩ := npSum_fin_nonneg l'
        (fun w' hw' => h w' (List.mem_cons_of_mem w hw'))
      refine ⟨r0 + s', by positivity, ?_⟩
      simp [npSum, List.foldr_cons, hw0] at hsum ⊢
      rw [hsum]
      rfl
    · obtain ⟨r, hr, hv⟩ := h v (List.mem_cons_self v l')
      obtain ⟨s', hs', hsum⟩ := ih
        (fun w' hw' => h w' (List.mem_cons_of_mem v hw'))
        ⟨w, hw, r0, hr0, hw0⟩
      refine ⟨r + s', by positivity, ?_⟩
      simp [npSum, List.foldr_cons, hv] at hsum ⊢
      rw [hsum]
      rfl

theorem npMeanQ_replicate (m : ℕ) (x : ℚ) :
    npMeanQ (List.replicate (m + 1) x) = NPF.fin x := by
  rw [List.replicate_succ]
  simp only [npMeanQ, ← List.replicate_succ]
  congr 1
  rw [List.sum_replicate, List.length_replicate]
  have hm : ((m : ℚ) + 1) ≠ 0 := by positivity
  push_cast
  field_simp

theorem npVarQ_replicate (m : ℕ) (x : ℚ) :
    npVarQ (List.replicate (m + 1) x) = NPF.fin 0 := by
  rw [List.replicate_succ]
  simp only [npVarQ, ← List.replicate_succ]
  congr 1
  rw [List.sum_replicate, List.length_replicate, List.map_replicate]
  have hsum : (x - (m + 1 : ℕ) • x / ((m + 1 : ℕ) : ℚ)) ^ 2 = 0 := by
    have hm : (((m : ℚ)) + 1) ≠ 0 := by positivity
    push_cast
    field_simp
  rw [hsum, List.sum_replicate, smul_zero, zero_div]

theorem sqStub_zero : sqStub (NPF.fin 0) = NPF.fin 0 := by
  have h : natSqrtExact 0 = some 0 := by decide
  have h1 : natSqrtExact 1 = some 1 := by decide
  norm_num [sqStub, h, h1]

theorem sqStub_sixteen : sqStub (NPF.fin 16) = NPF.fin 4 := by
  have h : natSqrtExact ((16 : ℤ).toNat) = some 4 := by decide
  have h1 : natSqrtExact 1 = some 1 := by decide
  norm_num [sqStub, h, h1]

theorem sqStub_inf : sqStub NPF.inf = NPF.inf := rfl

theorem lgStub_one : lgStub (NPF.fin 1) = NPF.fin 0 := by
  norm_num [lgStub]

/-- The surrogate logarithm is zero at `1`, non-negative at and above `1`,
and positive strictly above `1` — the facts the formula theorems assume of
`np.log`. -/
theorem lgStub_spec (q : ℚ) (hq : 1 ≤ q) :
    ∃ r : ℚ, 0 ≤ r ∧ (1 < q → 0 < r) ∧ lgStub (NPF.fin q) = NPF.fin r := by
  refine ⟨q - 1, by linarith, fun h => by linarith, ?_⟩
  have h0 : ¬(q = 0) := by intro h; rw [h] at hq; norm_num at hq
  have h1 : ¬(q < 0) := by intro h; linarith
  simp [lgStub, h0, h1]

/-- When every entry of the store holds at least one record, the
aggregation loop succeeds, and each non-skipped entry contributes its
summary triple under its stripped name. -/
theorem avg_results_mem {β : Type} (sq : ℚ → ℚ) (store : Store β)
    (hall : ∀ kv ∈ store, kv.2 ≠ ([] : List (β × ℚ))) :
    ∃ m, avg_results sq store = .ok m ∧
      ∀ k records, (k, records) ∈ store → hasScipy k = false →
        ∀ d rest, records.map Prod.snd = d :: rest →
          (stripEst k,
            (np_average (records.map Prod.snd),
             np_std sq (records.map Prod.snd),
             rest.foldl max d)) ∈ m := by
  induction store with
  | nil => exact ⟨[], rfl, by intro k records hk; cases hk⟩
  | cons kv0 rest0 ih =>
    obtain ⟨k0, r0⟩ := kv0
    obtain ⟨m', hm', hmem'⟩ := ih (fun kv hkv => hall kv (List.mem_cons_of_mem _ hkv))
    have hr0 : r0 ≠ [] := hall (k0, r0) (List.mem_cons_self _ _)
    by_cases hsc : hasScipy k0 = true
    · refine ⟨m', ?_, ?_⟩
      · simp [avg_results, hsc, hm']
      · intro k records hk hks d rest hd
        rcases List.mem_cons.mp hk with hk | hk
        · exfalso
          have : k = k0 := by
            have := congrArg Prod.fst hk
            simpa using this
          rw [this, hsc] at hks
          cases hks
        · exact hmem' k records hk hks d rest hd
    · have hsc' : hasScipy k0 = false := by
        cases h : hasScipy k0
        · rfl
        · exact absurd h hsc
      obtain ⟨d0, rest0', hd0⟩ : ∃ d0 rest0', r0.map Prod.snd = d0 :: rest0' := by
        cases hr : r0.map Prod.snd with
        | nil => exact absurd (List.map_eq_nil_iff.mp hr) hr0
        | cons a b => exact ⟨a, b, rfl⟩
      refine ⟨(stripEst k0,
          (np_average (r0.map Prod.snd), np_std sq (r0.map Prod.snd),
            rest0'.foldl max d0)) :: m', ?_, ?_⟩
      · simp only [avg_results, hsc', Bool.false_eq_true, if_false, aggEntry, hd0, hm']
      · intro k records hk hks d rest hd
        rcases List.mem_cons.mp hk with hk | hk
        · have hk1 : k = k0 := by have := congrArg Prod.fst hk; simpa using this
          have hk2 : records = r0 := by have := congrArg Prod.snd hk; simpa using this
          subst hk1; subst hk2
          have hd' : d0 = d ∧ rest0' = rest := by
            rw [hd0] at hd
            exact ⟨by injection hd, by injection hd⟩
          rw [hd'.1, hd'.2]
          exact List.mem_cons_self _ _
        · exact List.mem_cons_of_mem _ (hmem' k records hk hks d rest hd)

/-- Every key of the aggregated mapping is the stripped form of a key of
the store. -/
theorem avg_results_keys {β : Type} (sq : ℚ → ℚ) :
    ∀ (store : Store β) (m : List (String × (ℚ × ℚ × ℚ))),
      avg_results sq store = .ok m →
      ∀ kv ∈ m, ∃ k records, (k, records) ∈ store ∧ kv.1 = stripEst k := by
  intro store
  induction store with
  | nil =>
    intro m hm kv hkv
    simp only [avg_results, Except.ok.injEq] at hm
    subst hm
    cases hkv
  | cons kv0 rest0 ih =>
    intro m hm kv hkv
    obtain ⟨k0, r0⟩ := kv0
    by_cases hsc : hasScipy k0 = true
    · simp only [avg_results, hsc, if_true] at hm
      obtain ⟨k, records, hmem, hk⟩ := ih m hm kv hkv
      exact ⟨k, records, List.mem_cons_of_mem _ hmem, hk⟩
    · have hsc' : hasScipy k0 = false := by
        cases h : hasScipy k0
        · rfl
        · exact absurd h hsc
      simp only [avg_results, hsc', Bool.false_eq_true, if_false] at hm
      cases hagg : aggEntry sq r0 with
      | error e => rw [hagg] at hm; cases hm
      | ok entry =>
        rw [hagg] at hm
        cases hrest : avg_results sq rest0 with
        | error e => rw [hrest] at hm; cases hm
        | ok m' =>
          rw [hrest] at hm
          simp only [Except.ok.injEq] at hm
          subst hm
          rcases List.mem_cons.mp hkv with rfl | hkv'
          · exact ⟨k0, r0, List.mem_cons_self _ _, rfl⟩
          · obtain ⟨k, records, hmem, hk⟩ := ih m' hrest kv hkv'
            exact ⟨k, records, List.mem_cons_of_mem _ hmem, hk⟩

/-!  The claims. -/

/-- C2: when the wrapped estimator returns normally, the Timed Invocation
Wrapper appends exactly one `(result, duration)` record to the store entry
keyed by the estimator's name — creating the entry if absent, appending at
the end if present — leaves every other entry unchanged, and returns
`(result, duration)` to the caller. -/
theorem measure_time_records_success {α β : Type} (name : String)
    (f : α → Except PyErr β) (dur : ℚ) (x : α) (s : Store β) (r : β)
    (h : f x = .ok r) :
    measure_time name f dur x s = (.ok (r, dur), storeAppend s name (r, dur))
    ∧ lookupStore (storeAppend s name (r, dur)) name =
        some (recsOf s name ++ [(r, dur)])
    ∧ ∀ m, m ≠ name →
        lookupStore (storeAppend s name (r, dur)) m = lookupStore s m :=
  ⟨by simp [measure_time, h], lookupStore_storeAppend_self s name (r, dur),
   fun m hm => lookupStore_storeAppend_ne s name (r, dur) m hm⟩

theorem measure_time_records_success_witness :
    measure_time "f" (fun _ : Unit => Except.ok (7 : ℕ)) 2 () [("g", [(5, 1)])]
      = (.ok (7, 2), storeAppend [("g", [(5, 1)])] "f" (7, 2))
    ∧ lookupStore (storeAppend [("g", [(5, 1)])] "f" (7, 2)) "f" =
        some (recsOf [("g", [(5, 1)])] "f" ++ [(7, 2)])
    ∧ ∀ m, m ≠ "f" →
        lookupStore (storeAppend [("g", [(5, 1)])] "f" (7, 2)) m =
          lookupStore [("g", [(5, 1)])] m :=
  measure_time_records_success "f" (fun _ : Unit => Except.ok (7 : ℕ)) 2 ()
    [("g", [(5, 1)])] 7 rfl

/-- C3: when the wrapped estimator raises, the Timed Invocation Wrapper
propagates the same error to its caller and the Accumulation Store is left
exactly as it was — no partial record is stored. -/
theorem measure_time_propagates_error {α β : Type} (name : String)
    (f : α → Except PyErr β) (dur : ℚ) (x : α) (s : Store β) (e : PyErr)
    (h : f x = .error e) :
    measure_time name f dur x s = (.error e, s) := by
  simp [measure_time, h]

theorem measure_time_propagates_error_witness :
    measure_time "f" (fun _ : Unit => (Except.error .valueError : Except PyErr ℕ))
      2 () [("g", [(5, 1)])] = (.error .valueError, [("g", [(5, 1)])]) :=
  measure_time_propagates_error "f"
    (fun _ : Unit => (Except.error .valueError : Except PyErr ℕ)) 2 ()
    [("g", [(5, 1)])] .valueError rfl

/-- C8: for every store entry the aggregation step reaches (non-empty
records, key not containing `"scipy"`, every entry of the store
non-empty so the loop completes), the aggregated mapping holds, under the
entry's stripped name, exactly the triple (arithmetic mean of the
durations, population standard deviation of the durations — the square
root `sq` of the population variance —, maximum of the durations) over all
of that entry's invocation records. -/
theorem avg_results_summary {β : Type} (sq : ℚ → ℚ) (store : Store β)
    (k : String) (records : List (β × ℚ))
    (hmem : (k, records) ∈ store)
    (hall : ∀ kv ∈ store, kv.2 ≠ ([] : List (β × ℚ)))
    (hscipy : hasScipy k = false) :
    ∃ m, avg_results sq store = .ok m ∧
      ∃ mx, (records.map Prod.snd).max? = some mx ∧
        (stripEst k,
          (specMean (records.map Prod.snd),
           sq (specPopVar (records.map Prod.snd)), mx)) ∈ m := by
  obtain ⟨m, hm, hmm⟩ := avg_results_mem sq store hall
  have hr : records ≠ [] := hall (k, records) hmem
  obtain ⟨d, rest, hd⟩ : ∃ d rest, records.map Prod.snd = d :: rest := by
    cases hmap : records.map Prod.snd with
    | nil => exact absurd (List.map_eq_nil_iff.mp hmap) hr
    | cons a b => exact ⟨a, b, rfl⟩
  refine ⟨m, hm, rest.foldl max d, ?_, ?_⟩
  · rw [hd]
    rfl
  · have hmain := hmm k records hmem hscipy d rest hd
    have h1 : np_average (records.map Prod.snd) =
        specMean (records.map Prod.snd) := rfl
    have h2 : np_std sq (records.map Prod.snd) =
        sq (specPopVar (records.map Prod.snd)) := rfl
    rw [h1, h2] at hmain
    exact hmain

theorem avg_results_summary_witness :
    ∃ m, avg_results id [("ml_estimator", [((0 : ℚ), (2 : ℚ)), (0, 4)])] = .ok m ∧
      ∃ mx, (([((0 : ℚ), (2 : ℚ)), (0, 4)]).map Prod.snd).max? = some mx ∧
        (stripEst "ml_estimator",
          (specMean (([((0 : ℚ), (2 : ℚ)), (0, 4)]).map Prod.snd),
           id (specPopVar (([((0 : ℚ), (2 : ℚ)), (0, 4)]).map Prod.snd)),
           mx)) ∈ m :=
  avg_results_summary id [("ml_estimator", [((0 : ℚ), (2 : ℚ)), (0, 4)])]
    "ml_estimator" [((0 : ℚ), (2 : ℚ)), (0, 4)]
    (List.mem_cons_self _ _)
    (by
      intro kv hkv
      rcases List.mem_cons.mp hkv with rfl | h
      · simp
      · cases h)
    (by decide)

/-- C9: for positive shape and location and any count, the Sampler's draw
operation — `pareto.rvs` modelled by inverse-transform sampling with a
power function `pw` that is at least `1` on `(0,1)`-bases with negative
exponents, driven by uniform variates `u i ∈ (0,1)` — returns exactly
`count` values, every one at least the location parameter. -/
theorem get_pareto_data_spec (pw : ℚ → ℚ → ℚ) (shape location : ℚ)
    (count : ℕ) (u : ℕ → ℚ) (hs : 0 < shape) (hl : 0 < location)
    (hu : ∀ i, 0 < u i ∧ u i < 1)
    (hpw : ∀ x e : ℚ, 0 < x → x < 1 → e < 0 → 1 ≤ pw x e) :
    (get_pareto_data pw shape location count u).length = count
    ∧ ∀ v ∈ get_pareto_data pw shape location count u, location ≤ v := by
  constructor
  · simp [get_pareto_data]
  · intro v hv
    simp only [get_pareto_data, List.mem_map, List.mem_range] at hv
    obtain ⟨i, _, rfl⟩ := hv
    have hu1 := (hu i).1
    have hu2 := (hu i).2
    have hx : 0 < 1 - u i := by linarith
    have hx1 : 1 - u i < 1 := by linarith
    have he : -shape⁻¹ < 0 := by
      have := inv_pos.mpr hs
      linarith
    have hw := hpw (1 - u i) (-shape⁻¹) hx hx1 he
    calc location = location * 1 := (mul_one location).symm
    _ ≤ location * pw (1 - u i) (-shape⁻¹) :=
        mul_le_mul_of_nonneg_left hw hl.le

theorem get_pareto_data_spec_witness :
    (get_pareto_data (fun _ _ => 1) 5 3 2 (fun _ => 1/2)).length = 2
    ∧ ∀ v ∈ get_pareto_data (fun _ _ => 1) 5 3 2 (fun _ => 1/2), 3 ≤ v :=
  get_pareto_data_spec (fun _ _ => 1) 5 3 2 (fun _ => 1/2)
    (by norm_num) (by norm_num)
    (fun i => by norm_num)
    (fun x e _ _ _ => le_refl 1)

/-- C4: after a run in which every estimator call returns normally, the
Accumulation Store's record count for each name in the configured list
equals the repetition count; with `reps = 10000` every configured
estimator therefore holds exactly 10000 invocation records. -/
theorem repetition_record_counts {β : Type} (samples : ℕ → Sample)
    (est : String → Sample → Except PyErr β) (durs : ℕ → ℚ)
    (res : String → ℕ → β) (reps : ℕ) (name : String)
    (hsucc : ∀ n ∈ function_names, ∀ j, est n (samples j) = .ok (res n j))
    (hname : name ∈ function_names) :
    ∃ st, runExperiments reps function_names samples est durs = .ok st ∧
      (recsOf st name).length = reps := by
  refine ⟨runLoopP res durs function_names reps 0 [], ?_, ?_⟩
  · exact runLoop_eq_runLoopP samples est durs res function_names hsucc reps 0 []
  · rw [recsOf_runLoopP_count]
    have hcount : function_names.count name = 1 := by
      simp only [function_names, List.mem_cons, List.not_mem_nil,
        or_false] at hname
      rcases hname with rfl | rfl | rfl | rfl | rfl | rfl | rfl <;> decide
    rw [hcount]
    simp [recsOf, lookupStore]

theorem repetition_record_counts_witness :
    ∃ st, runExperiments 10000 function_names (fun _ => [])
        (fun _ _ => Except.ok (0 : ℚ)) (fun _ => 0) = .ok st ∧
      (recsOf st "ml_estimator").length = 10000 :=
  repetition_record_counts (fun _ => []) (fun _ _ => Except.ok (0 : ℚ))
    (fun _ => 0) (fun _ _ => 0) 10000 "ml_estimator"
    (fun _ _ _ => rfl) (by decide)

/-- C1 as stated is false on the code: the sample is drawn inside the
inner estimator loop, so in one repetition with two estimator names, the
identity estimator and the injective sample stream `j ↦ [j]`, the store
shows estimator `"a"` consumed sample `[0]` while `"b"` consumed the
distinct fresh sample `[1]` — not one shared sample per repetition. -/
theorem driver_not_single_sample_per_repetition :
    runExperiments 1 ["a", "b"] (fun j => [(j : ℚ)]) (fun _ x => Except.ok x)
        (fun _ => (0 : ℚ))
      = .ok [("a", [([0], 0)]), ("b", [([1], 0)])]
    ∧ ([(0 : ℚ)] : Sample) ≠ [(1 : ℚ)] :=
  ⟨rfl, by decide⟩

/-- C1 amended: each repetition draws one fresh sample per estimator
call, not one shared sample: when every call returns normally and the
name `m` sits at position `l1.length` of the name list, the records for
`m` are exactly the results of applying `m`'s estimator to draw number
`i * L + l1.length` of repetition `i` (where `L` is the number of
configured names), in repetition order, through the Timed Invocation
Wrapper. -/
theorem driver_fresh_sample_per_call {β : Type} (samples : ℕ → Sample)
    (est : String → Sample → Except PyErr β) (durs : ℕ → ℚ)
    (res : String → ℕ → β) (reps : ℕ) (l1 l2 : List String) (m : String)
    (hsucc : ∀ n ∈ l1 ++ m :: l2, ∀ j, est n (samples j) = .ok (res n j))
    (h1 : m ∉ l1) (h2 : m ∉ l2) :
    ∃ st, runExperiments reps (l1 ++ m :: l2) samples est durs = .ok st ∧
      recsOf st m = (List.range reps).map (fun i =>
        (res m (i * (l1 ++ m :: l2).length + l1.length),
         durs (i * (l1 ++ m :: l2).length + l1.length))) := by
  refine ⟨runLoopP res durs (l1 ++ m :: l2) reps 0 [],
    runLoop_eq_runLoopP samples est durs res _ hsucc reps 0 [], ?_⟩
  rw [recsOf_runLoopP_split durs res l1 l2 m h1 h2 reps 0 []]
  simp [recsOf, lookupStore]

theorem driver_fresh_sample_per_call_witness :
    ∃ st, runExperiments 2 (["a"] ++ "b" :: []) (fun j => [(j : ℚ)])
        (fun _ x => Except.ok x) (fun _ => (0 : ℚ)) = .ok st ∧
      recsOf st "b" = (List.range 2).map (fun i =>
        ([(↑(i * (["a"] ++ "b" :: []).length + ["a"].length) : ℚ)],
         (0 : ℚ))) :=
  driver_fresh_sample_per_call (fun j => [(j : ℚ)]) (fun _ x => Except.ok x)
    (fun _ => (0 : ℚ)) (fun _ j => [(j : ℚ)]) 2 ["a"] [] "b"
    (fun _ _ _ => rfl) (by decide) (by decide)

/-- C10: the scipy maximum-likelihood estimator is not among the
configured names, so the driver loop never invokes it — every key the run
stores comes from `function_names` — and the aggregated mapping holds no
entry whose name contains `"scipy"` (the aggregation loop skips every such
key). -/
theorem scipy_never_aggregated {β : Type} (reps : ℕ) (samples : ℕ → Sample)
    (est : String → Sample → Except PyErr β) (durs : ℕ → ℚ) (sq : ℚ → ℚ)
    (st : Store β) (m : List (String × (ℚ × ℚ × ℚ)))
    (h1 : runExperiments reps function_names samples est durs = .ok st)
    (h2 : avg_results sq st = .ok m) :
    "maximum_likelihood_estimator_scipy" ∉ function_names
    ∧ (∀ kv ∈ st, kv.1 ∈ function_names)
    ∧ (∀ kv ∈ m, hasScipy kv.1 = false) := by
  have hkeys : ∀ kv ∈ st, kv.1 ∈ function_names := by
    intro kv hkv
    rcases runLoop_keys samples est durs function_names reps 0 [] st h1 kv hkv
      with h | ⟨v, hv⟩
    · exact h
    · cases hv
  refine ⟨by decide, hkeys, ?_⟩
  intro kv hkv
  obtain ⟨k, records, hmem, hk⟩ := avg_results_keys sq st m h2 kv hkv
  have hkfn : k ∈ function_names := hkeys (k, records) hmem
  rw [hk]
  simp only [function_names, List.mem_cons, List.not_mem_nil,
    or_false] at hkfn
  rcases hkfn with rfl | rfl | rfl | rfl | rfl | rfl | rfl <;> decide

theorem scipy_never_aggregated_witness :
    "maximum_likelihood_estimator_scipy" ∉ function_names
    ∧ (∀ kv ∈ demoStore, kv.1 ∈ function_names)
    ∧ (∀ kv ∈ demoAgg, hasScipy kv.1 = false) :=
  scipy_never_aggregated 1 (fun _ => []) (fun _ _ => Except.ok (0 : ℚ))
    (fun _ => 0) id demoStore demoAgg rfl
    (by
      have e1 : hasScipy "umvue_estimator" = false := by decide
      have e2 : hasScipy "ml_estimator" = false := by decide
      have e3 : hasScipy "mom_estimator" = false := by decide
      have e4 : hasScipy "mm1_estimator" = false := by decide
      have e5 : hasScipy "mm2_estimator" = false := by decide
      have e6 : hasScipy "mm3_estimator" = false := by decide
      have e7 : hasScipy "mm4_estimator" = false := by decide
      have p1 : stripEst "umvue_estimator" = "umvue" := by decide
      have p2 : stripEst "ml_estimator" = "ml" := by decide
      have p3 : stripEst "mom_estimator" = "mom" := by decide
      have p4 : stripEst "mm1_estimator" = "mm1" := by decide
      have p5 : stripEst "mm2_estimator" = "mm2" := by decide
      have p6 : stripEst "mm3_estimator" = "mm3" := by decide
      have p7 : stripEst "mm4_estimator" = "mm4" := by decide
      norm_num [demoStore, demoAgg, avg_results, aggEntry, np_average,
        np_std, e1, e2, e3, e4, e5, e6, e7, p1, p2, p3, p4, p5, p6, p7])

/-- C5 fails on the code: on the zero-variance sample `[4,4,4]` the
method-of-moments estimator raises nothing — no `DegenerateInput` error
exists, numpy's division by zero only warns — and instead returns
normally with the non-finite shape estimate `inf` and location `4`. -/
theorem mom_no_degenerate_error :
    mom_estimator sqStub [4, 4, 4] = .ok (NPF.inf, NPF.fin 4) := by
  norm_num [mom_estimator, npMeanQ, npVarQ, sqStub_sixteen, sqStub_zero,
    sqStub_inf, NPF.npMul, NPF.npAdd, NPF.npDiv]

/-- C5 amended: on every all-equal positive sample (zero variance) the
method-of-moments estimator raises no error: the division of the positive
`t²` by the zero variance silently yields `inf`, and the estimator
returns normally with shape estimate `inf` and location estimate the
repeated value (the hypotheses on `sq` are the values `np.sqrt` takes on
the touched inputs `0`, `inf` and `x²`). -/
theorem mom_all_equal_returns_inf (sq : NPF → NPF) (x : ℚ) (n : ℕ)
    (hx : 0 < x) (hn : 1 ≤ n)
    (h0 : sq (NPF.fin 0) = NPF.fin 0)
    (hinf : sq NPF.inf = NPF.inf)
    (hxx : sq (NPF.fin (x * x)) = NPF.fin x) :
    mom_estimator sq (List.replicate n x) = .ok (NPF.inf, NPF.fin x) := by
  obtain ⟨m, rfl⟩ : ∃ m, n = m + 1 := ⟨n - 1, by omega⟩
  have hmean := npMeanQ_replicate m x
  have hvar := npVarQ_replicate m x
  have hpos : 0 < x * x := mul_pos hx hx
  simp [mom_estimator, hmean, hvar, h0, hinf, hxx, NPF.npMul, NPF.npAdd,
    NPF.npDiv, hpos, hx.ne', div_self, zero_add, one_mul]

theorem mom_all_equal_returns_inf_witness :
    mom_estimator sqStub (List.replicate 3 4) = .ok (NPF.inf, NPF.fin 4) :=
  mom_all_equal_returns_inf sqStub 4 3 (by norm_num) (by norm_num)
    sqStub_zero sqStub_inf (by norm_num [sqStub_sixteen])

/-- C6 fails on the code: on the one-element sample `[5]` the closed-form
maximum-likelihood estimator does not fail at all (no `InsufficientData`
error exists): `np.float64(0.0) ** -1` merely warns, and the estimator
returns normally with shape estimate `inf` and location `5`. -/
theorem ml_singleton_returns :
    ml_estimator lgStub [5] = .ok (NPF.inf, NPF.fin 5) := by
  norm_num [ml_estimator, pymin, npSum, npDivQ, lgStub, NPF.npMul,
    NPF.npRecip, NPF.npAdd]

/-- C6 amended: samples with fewer than two elements produce no
`InsufficientData` error — the estimators do not check the sample length.
On a one-element positive sample the closed-form ML estimator returns
normally with shape `inf` and location the single value, while the UMVUE
estimator raises `ZeroDivisionError` (the Python integer power
`(n-1) ** -1 = 0 ** -1` on its `gamma` line); on the empty sample
`min(data)` raises `ValueError`. -/
theorem short_sample_no_insufficient_data (lg : NPF → NPF) (x : ℚ)
    (hx : 0 < x) (h1 : lg (NPF.fin 1) = NPF.fin 0) :
    ml_estimator lg [x] = .ok (NPF.inf, NPF.fin x)
    ∧ umvue_estimator lg [x] = .error .zeroDivisionError
    ∧ ml_estimator lg [] = .error .valueError := by
  refine ⟨?_, ?_, rfl⟩
  · have hdiv : npDivQ x x = NPF.fin 1 := by
      simp [npDivQ, hx.ne', div_self hx.ne']
    simp [ml_estimator, pymin, npSum, hdiv, h1, NPF.npMul, NPF.npRecip,
      NPF.npAdd]
  · simp [umvue_estimator, pymin]

theorem short_sample_no_insufficient_data_witness :
    ml_estimator lgStub [5] = .ok (NPF.inf, NPF.fin 5)
    ∧ umvue_estimator lgStub [5] = .error .zeroDivisionError
    ∧ ml_estimator lgStub [] = .error .valueError :=
  short_sample_no_insufficient_data lgStub 5 (by norm_num) lgStub_one

/-- C7: on every sample whose minimum `x₁` is positive, whose values are
not all equal, and of length at least two, the closed-form ML estimator
returns shape estimate `n / Σ lg(xᵢ/x₁)` — the sum being a positive finite
scalar — and location estimate `x₁ = min(sample)`, agreeing with the
specification formula `ml_spec`; moreover on `[1,2,3]` the location
estimate is `1` for every logarithm.  The hypotheses on `lg` are the facts
the real `np.log` satisfies on `[1, ∞)`. -/
theorem ml_estimator_formula (lg : NPF → NPF) (data : Sample) (g : ℚ)
    (hg : pymin data = .ok g) (hgpos : 0 < g)
    (hne : ∃ y ∈ data, y ≠ g) (_hlen : 2 ≤ data.length)
    (hlg : ∀ q : ℚ, 1 ≤ q →
      ∃ r, 0 ≤ r ∧ (1 < q → 0 < r) ∧ lg (NPF.fin q) = NPF.fin r) :
    ∃ s : ℚ, 0 < s ∧
      npSum ((data.map (fun x => npDivQ x g)).map lg) = NPF.fin s ∧
      ml_estimator lg data = .ok (NPF.fin (data.length / s), NPF.fin g) ∧
      ml_estimator lg data = ml_spec lg data ∧
      ∀ lg2, ∃ a, ml_estimator lg2 [1, 2, 3] = .ok (a, NPF.fin 1) := by
  have hmin := pymin_le data g hg
  have hforall : ∀ v ∈ (data.map (fun x => npDivQ x g)).map lg,
      ∃ r : ℚ, 0 ≤ r ∧ v = NPF.fin r := by
    intro v hv
    obtain ⟨w, hw, rfl⟩ := List.mem_map.mp hv
    obtain ⟨y, hy, rfl⟩ := List.mem_map.mp hw
    have h1q : 1 ≤ y / g := (one_le_div hgpos).mpr (hmin y hy)
    have hdq : npDivQ y g = NPF.fin (y / g) := by simp [npDivQ, hgpos.ne']
    obtain ⟨r, hr0, _, hlgr⟩ := hlg (y / g) h1q
    exact ⟨r, hr0, by rw [hdq, hlgr]⟩
  have hstrict : ∃ v ∈ (data.map (fun x => npDivQ x g)).map lg,
      ∃ r : ℚ, 0 < r ∧ v = NPF.fin r := by
    obtain ⟨y, hy, hyne⟩ := hne
    have hgy : g < y := lt_of_le_of_ne (hmin y hy) (fun h => hyne h.symm)
    have h1q : 1 < y / g := (one_lt_div hgpos).mpr hgy
    have hdq : npDivQ y g = NPF.fin (y / g) := by simp [npDivQ, hgpos.ne']
    obtain ⟨r, _, hrpos, hlgr⟩ := hlg (y / g) h1q.le
    refine ⟨lg (npDivQ y g), ?_, r, hrpos h1q, by rw [hdq, hlgr]⟩
    exact List.mem_map_of_mem lg (List.mem_map_of_mem _ hy)
  obtain ⟨s, hs, hsum⟩ := npSum_fin_pos _ hforall hstrict
  refine ⟨s, hs, hsum, ?_, ?_, ?_⟩
  · rw [List.map_map] at hsum
    simp [ml_estimator, hg, hsum, NPF.npRecip, hs.ne', NPF.npMul,
      div_eq_mul_inv]
  · rw [List.map_map] at hsum
    simp [ml_estimator, ml_spec, hg, hsum, NPF.npRecip, hs.ne', NPF.npMul,
      NPF.npDiv, div_eq_mul_inv]
  · intro lg2
    have hm : pymin [(1 : ℚ), 2, 3] = .ok 1 := by norm_num [pymin]
    refine ⟨npMul (NPF.fin ([(1 : ℚ), 2, 3].length : ℚ))
      (npRecip (npSum (([(1 : ℚ), 2, 3].map (fun x => npDivQ x 1)).map lg2))),
      ?_⟩
    simp [ml_estimator, hm]

theorem ml_estimator_formula_witness :
    ∃ s : ℚ, 0 < s ∧
      npSum ((([(1 : ℚ), 2, 3]).map (fun x => npDivQ x 1)).map lgStub) =
        NPF.fin s ∧
      ml_estimator lgStub [1, 2, 3] =
        .ok (NPF.fin (([(1 : ℚ), 2, 3]).length / s), NPF.fin 1) ∧
      ml_estimator lgStub [1, 2, 3] = ml_spec lgStub [1, 2, 3] ∧
      ∀ lg2, ∃ a, ml_estimator lg2 [1, 2, 3] = .ok (a, NPF.fin 1) :=
  ml_estimator_formula lgStub [1, 2, 3] 1
    (by norm_num [pymin]) (by norm_num)
    ⟨2, by norm_num, by norm_num⟩ (by norm_num)
    (fun q hq => lgStub_spec q hq)
